import Mathlib

/-!
# Verification of the Holdings Manager ingestion core

A shallow embedding of the ingestion pipeline of the Holdings Manager
application (owner extraction from filenames, sheet format detection,
holding-record extraction with noise filtering, pivot aggregation, and
the sort engine), together with theorems settling the specification's
claims about it.

Cell values are modelled as a tagged variant (text / number / empty);
numbers are modelled as rationals (the source uses IEEE doubles, whose
non-finite values are outside this model).  JavaScript objects with
string keys are modelled as insertion-ordered association lists, which
matches the enumeration-order semantics the source relies on.
-/

namespace HoldingsManager

/-! ## JavaScript string primitives used by the source -/

/-- Whitespace as matched by the `\s` regex class and `String.prototype.trim`
(ASCII part; the source's inputs are ASCII filenames and sheet cells). -/
def jsIsSpace (c : Char) : Bool :=
  c = ' ' || c = '\t' || c = '\n' || c = '\r' || c = '\x0b' || c = '\x0c'

/-- Models `String.prototype.trim` on a character list. -/
def trimChars (l : List Char) : List Char :=
  ((l.dropWhile jsIsSpace).reverse.dropWhile jsIsSpace).reverse

/-- Models `String.prototype.trim`. -/
def jsTrim (s : String) : String :=
  ⟨trimChars s.data⟩

/-- Models `String.prototype.toLowerCase` (ASCII range, which covers every literal
the source compares against). -/
def jsToLower (s : String) : String :=
  ⟨s.data.map Char.toLower⟩

/-- Does `needle` occur at the head of `hay`? -/
def matchesAt : List Char → List Char → Bool
  | [], _ => true
  | _ :: _, [] => false
  | n :: ns, h :: hs => n = h && matchesAt ns hs

/-- Substring occurrence, as `String.prototype.includes` checks it. -/
def hasSubList (needle : List Char) : List Char → Bool
  | [] => matchesAt needle []
  | h :: hs => matchesAt needle (h :: hs) || hasSubList needle hs

/-- Models `hay.includes(needle)`. -/
def jsIncludes (hay needle : String) : Bool :=
  hasSubList needle.data hay.data

/-! ## OwnerExtractor: `extractOwnerFromFilename`

The source matches the filename against `/CLIENT\s*([^-|_]+?)\s*CLIENT-ID/i`
and on success returns the capture trimmed with `_` and `-` replaced by
spaces; otherwise it strips a trailing `.xlsx`/`.csv` extension
(case-insensitive).  The regex engine is embedded as a backtracking
matcher specialised to this one pattern: leftmost match, greedy `\s*`
(longest first), lazy capture `[^-|_]+?` (shortest first). -/

/-- Case-insensitive literal match at the head; returns the rest on success. -/
def ciMatchPrefix : List Char → List Char → Option (List Char)
  | [], s => some s
  | _ :: _, [] => none
  | p :: ps, c :: cs =>
    if p.toLower = c.toLower then ciMatchPrefix ps cs else none

/-- All suffixes obtainable by consuming `\s*`, greedy order (longest
consumption first), as a backtracking regex engine tries them. -/
def wsDrops : List Char → List (List Char)
  | [] => [[]]
  | c :: cs =>
    if jsIsSpace c then wsDrops cs ++ [c :: cs] else [c :: cs]

/-- Characters excluded by the capture class `[^-|_]`. -/
def capExcluded (c : Char) : Bool :=
  c = '-' || c = '|' || c = '_'

/-- After the capture, the pattern requires `\s*` then `CLIENT-ID`
(case-insensitive). -/
def tailOK (s : List Char) : Bool :=
  (wsDrops s).any fun r => (ciMatchPrefix "CLIENT-ID".data r).isSome

/-- Lazy capture `[^-|_]+?`: grow one character at a time, stopping at the
first length whose continuation succeeds. -/
def capGo (acc : List Char) : List Char → Option (List Char)
  | [] => none
  | c :: cs =>
    if capExcluded c then none
    else if tailOK cs then some (c :: acc).reverse
    else capGo (c :: acc) cs

/-- First `some` in a list of attempts. -/
def firstSome : List (Option (List Char)) → Option (List Char)
  | [] => none
  | some x :: _ => some x
  | none :: rest => firstSome rest

/-- Try the whole pattern anchored at this position; returns the capture. -/
def matchClientAt (s : List Char) : Option (List Char) :=
  match ciMatchPrefix "CLIENT".data s with
  | none => none
  | some r => firstSome ((wsDrops r).map (capGo []))

/-- Leftmost match of `/CLIENT\s*([^-|_]+?)\s*CLIENT-ID/i`. -/
def findClientMatch : List Char → Option (List Char)
  | [] => none
  | s :: rest =>
    match matchClientAt (s :: rest) with
    | some cap => some cap
    | none => findClientMatch rest

/-- Case-insensitive suffix test, as the extension-stripping regex anchors it. -/
def endsWithCI (s suffix : String) : Bool :=
  List.isPrefixOf (suffix.data.map Char.toLower).reverse
    (s.data.map Char.toLower).reverse

/-- Models `filename.replace(/\.(xlsx|csv)$/i, '')`. -/
def stripSheetExt (s : String) : String :=
  if endsWithCI s ".xlsx" then ⟨s.data.take (s.data.length - 5)⟩
  else if endsWithCI s ".csv" then ⟨s.data.take (s.data.length - 4)⟩
  else s

/-- The source's `extractOwnerFromFilename`: regex match with capture
post-processing, falling back to extension stripping. -/
def extractOwnerFromFilename (filename : String) : String :=
  match findClientMatch filename.data with
  | some cap =>
    ⟨((trimChars cap).map fun c => if c = '_' then ' ' else c).map
        fun c => if c = '-' then ' ' else c⟩
  | none => stripSheetExt filename

/-! ## RawSheet cells

`XLSX.utils.sheet_to_json(ws, { header: 1 })` yields rows of loosely
typed cells; the design models them as a tagged variant.  Numbers are
rationals (JS doubles; non-finite values are outside this model). -/

inductive Cell where
  | text (s : String)
  | num (q : Rat)
  | empty
deriving DecidableEq

/-- Decimal digits of the fractional part `n / d` (with `n < d`), up to
`fuel` digits; used only to render non-integral numeric cells. -/
def fracDigits : Nat → Nat → Nat → List Char
  | 0, _, _ => []
  | _ + 1, 0, _ => []
  | fuel + 1, n, d =>
    let n10 := n * 10
    Char.ofNat ('0'.toNat + n10 / d) :: fracDigits fuel (n10 % d) d

/-- Models `String(x)` for a numeric value: sign, integer part, and (for
non-integral values) a decimal point with fractional digits.  Faithful to
the source's JS `String(number)` on integers and short decimals. -/
def numToStr (q : Rat) : String :=
  let sign := if q < 0 then "-" else ""
  let n := q.num.natAbs
  let d := q.den
  sign ++ toString (n / d) ++
    (if n % d = 0 then "" else "." ++ ⟨fracDigits 20 (n % d) d⟩)

/-- Models `String(cell || '')`: `undefined`, the empty string, and the number `0`
are falsy and become `''`; other values are stringified. -/
def jsStrOrEmpty (c : Cell) : String :=
  match c with
  | .text s => s
  | .num q => if q = 0 then "" else numToStr q
  | .empty => ""

/-- Models `String(cell || '0')`: as above but falsy values become `'0'` (used for
the quantity cell). -/
def jsStrOrZero (c : Cell) : String :=
  match c with
  | .text s => if s = "" then "0" else s
  | .num q => if q = 0 then "0" else numToStr q
  | .empty => "0"

/-- Models `typeof cell === 'number'`. -/
def isNumCell (c : Cell) : Bool :=
  match c with
  | .num _ => true
  | _ => false

/-- Cell access `row[j]`, with `undefined` modelled as `empty`. -/
def rowCell (row : List Cell) (j : Nat) : Cell :=
  row.getD j Cell.empty

/-! ## FormatDetector

The source scans the first `min(15, rows)` rows keeping three mutable
variables (`dataStartRow = -1`, `companyColIndex = 1`,
`totalColIndex = 9`); rows with fewer than 3 cells are skipped; a row
whose first cell looks like an ISIN/generic code, or which has numeric
cells at indices 2 and 9 with at least 10 cells, fixes `dataStartRow`
and breaks; otherwise every cell is checked for header keywords.
Finally a still-unset `dataStartRow` defaults to 5. -/

structure ColumnMapping where
  dataStartRow : Int
  companyColIndex : Nat
  totalColIndex : Nat
deriving DecidableEq

def isAsciiAlpha (c : Char) : Bool :=
  ('A' ≤ c && c ≤ 'Z') || ('a' ≤ c && c ≤ 'z')

def isAsciiDigit (c : Char) : Bool :=
  '0' ≤ c && c ≤ '9'

def isAsciiAlnum (c : Char) : Bool :=
  isAsciiAlpha c || isAsciiDigit c

/-- Models `/^INE[A-Z0-9]+$/i.test(s)`. -/
def isINECode (s : String) : Bool :=
  match s.data with
  | a :: b :: c :: rest =>
    a.toLower = 'i' && b.toLower = 'n' && c.toLower = 'e' &&
      !rest.isEmpty && rest.all isAsciiAlnum
  | _ => false

/-- Models `/^[A-Z]{2}[A-Z0-9]+$/i.test(s)`: a generic two-letter-prefixed
alphanumeric code of length at least 3. -/
def isGenericCode (s : String) : Bool :=
  match s.data with
  | a :: b :: rest =>
    isAsciiAlpha a && isAsciiAlpha b && !rest.isEmpty && rest.all isAsciiAlnum
  | _ => false

/-- The data-row heuristic for one row: ISIN-like or generic code in the
first cell, or at least 10 cells with numeric cells at indices 2 and 9. -/
def dataRowTest (row : List Cell) : Bool :=
  let firstCell := jsTrim (jsStrOrEmpty (rowCell row 0))
  isINECode firstCell || isGenericCode firstCell ||
    (decide (10 ≤ row.length) && isNumCell (rowCell row 2) && isNumCell (rowCell row 9))

/-- Header keywords that set `companyColIndex`. -/
def companyKeywordTest (v : String) : Bool :=
  jsIncludes v "company" || jsIncludes v "scrip" ||
    jsIncludes v "name of security" || jsIncludes v "security name"

/-- Header keywords that set `totalColIndex`. -/
def totalKeywordTest (v : String) : Bool :=
  v = "total" || v = "free" || jsIncludes v "total qty" ||
    jsIncludes v "quantity" || jsIncludes v "holding"

/-- Models `String(row[j] || '').toLowerCase().trim()`: the normalisation applied
to a cell before keyword matching. -/
def headerCellValue (c : Cell) : String :=
  jsTrim (jsToLower (jsStrOrEmpty c))

/-- Effect of inspecting one cell (at row `i`, column `j`) of a candidate
header row on the detector state. -/
def headerCellStep (st : ColumnMapping) (i j : Nat) (c : Cell) : ColumnMapping :=
  let v := headerCellValue c
  let st1 := if companyKeywordTest v then
    { st with companyColIndex := j, dataStartRow := (i : Int) + 1 } else st
  if totalKeywordTest v then { st1 with totalColIndex := j } else st1

/-- The inner `for (let j...)` loop over a row's cells. -/
def headerRowScan (st : ColumnMapping) (i j : Nat) : List Cell → ColumnMapping
  | [] => st
  | c :: rest => headerRowScan (headerCellStep st i j c) i (j + 1) rest

/-- One iteration of the outer scan loop: returns the updated state and
whether the loop breaks. -/
def detectRowStep (st : ColumnMapping) (i : Nat) (row : List Cell) :
    ColumnMapping × Bool :=
  if row.length < 3 then (st, false)
  else if dataRowTest row then ({ st with dataStartRow := (i : Int) }, true)
  else (headerRowScan st i 0 row, false)

/-- The outer scan loop over (at most 15) rows. -/
def detectGo (st : ColumnMapping) (i : Nat) : List (List Cell) → ColumnMapping
  | [] => st
  | row :: rest =>
    match detectRowStep st i row with
    | (st', true) => st'
    | (st', false) => detectGo st' (i + 1) rest

/-- Initial detector state. -/
def detectInit : ColumnMapping :=
  { dataStartRow := -1, companyColIndex := 1, totalColIndex := 9 }

/-- The source's format detection: the full pass, including the final
`dataStartRow < 0 → 5` default. -/
def detect (sheet : List (List Cell)) : ColumnMapping :=
  let st := detectGo detectInit 0 (sheet.take 15)
  if st.dataStartRow < 0 then { st with dataStartRow := 5 } else st

/-! ## RecordExtractor -/

structure HoldingData where
  companyName : String
  total : Rat
  ownerName : String
deriving DecidableEq

/-- Models `parseFloat` on a character list: optional sign, digits, optional
fractional part, optional exponent; `none` models `NaN`.  (JS also parses
the literal `Infinity`, a non-finite value outside this rational model.) -/
def jsParseFloatCore (l : List Char) : Option Rat :=
  let l := l.dropWhile jsIsSpace
  let (sign, l) : Rat × List Char :=
    match l with
    | '-' :: rest => (-1, rest)
    | '+' :: rest => (1, rest)
    | _ => (1, l)
  let intPart := l.takeWhile isAsciiDigit
  let l := l.drop intPart.length
  let (fracPart, l) : List Char × List Char :=
    match l with
    | '.' :: rest => (rest.takeWhile isAsciiDigit, rest.drop (rest.takeWhile isAsciiDigit).length)
    | _ => ([], l)
  if intPart.isEmpty && fracPart.isEmpty then none
  else
    let digitsToNat : List Char → Nat :=
      fun ds => ds.foldl (fun n c => 10 * n + (c.toNat - '0'.toNat)) 0
    let mantissa : Rat :=
      (digitsToNat intPart : Rat) + (digitsToNat fracPart : Rat) / ((10 : Rat) ^ fracPart.length)
    let expo : Int :=
      match l with
      | 'e' :: rest => readExpo rest
      | 'E' :: rest => readExpo rest
      | _ => 0
    some (sign * mantissa * (10 : Rat) ^ expo)
where
  /-- Exponent part `[+-]?digits`; an incomplete exponent is ignored, as
  `parseFloat` backtracks past it. -/
  readExpo (l : List Char) : Int :=
    let (esign, l) : Int × List Char :=
      match l with
      | '-' :: rest => (-1, rest)
      | '+' :: rest => (1, rest)
      | _ => (1, l)
    let ds := l.takeWhile isAsciiDigit
    if ds.isEmpty then 0
    else esign * (ds.foldl (fun n c => 10 * n + (c.toNat - '0'.toNat)) 0 : Nat)

/-- Models `parseFloat(String(cell || '0').replace(/,/g, '')) || 0` — the quantity
of a cell that is not already numeric; `NaN` (unparsable) becomes `0`. -/
def parseTextQuantity (c : Cell) : Rat :=
  ((jsParseFloatCore ((jsStrOrZero c).data.filter (· ≠ ','))).getD 0)

/-- The quantity read from the cell at the total column: numeric cells pass
through unchanged, other cells are parsed as text. -/
def cellQuantity (c : Cell) : Rat :=
  match c with
  | .num q => q
  | _ => parseTextQuantity c

/-- The trimmed company name extracted from a row under a mapping. -/
def extractCompany (m : ColumnMapping) (row : List Cell) : String :=
  jsTrim (jsStrOrEmpty (rowCell row m.companyColIndex))

/-- The noise filter: lower-cased company name contains "total", "grand"
or "summary". -/
def noiseNameTest (companyName : String) : Bool :=
  let lowerName := jsToLower companyName
  jsIncludes lowerName "total" || jsIncludes lowerName "grand" ||
    jsIncludes lowerName "summary"

/-- The per-row body of the extraction loop: skip short rows, apply the
noise filter, and emit only rows with a company name longer than one
character and a nonzero quantity.  `none` is a silent skip. -/
def rowToRecord (m : ColumnMapping) (owner : String) (row : List Cell) :
    Option HoldingData :=
  if row.length ≤ max m.companyColIndex m.totalColIndex then none
  else
    let companyName := extractCompany m row
    let total := cellQuantity (rowCell row m.totalColIndex)
    if noiseNameTest companyName then none
    else if companyName ≠ "" && decide (1 < companyName.length) && total ≠ 0 then
      some { companyName := companyName, total := total, ownerName := owner }
    else none

/-- The record extraction pass: walk the rows from `dataStartRow` on (the detector leaves
`dataStartRow ≥ 0`, so `toNat` is exact) and collect the accepted records. -/
def extractRecords (sheet : List (List Cell)) (m : ColumnMapping)
    (owner : String) : List HoldingData :=
  (sheet.drop m.dataStartRow.toNat).filterMap (rowToRecord m owner)

/-! ## PivotAggregator

`PivotData` is a JS object keyed by company name whose values are objects
keyed by owner name (plus the reserved key `"Total Holdings"`).  JS
objects with string keys enumerate in insertion order; assignment to an
existing key updates it in place, assignment to a fresh key appends.
Both levels are therefore modelled as insertion-ordered association
lists. -/

abbrev PivotRow := List (String × Rat)
abbrev PivotData := List (String × PivotRow)

/-- Object property read (first occurrence). -/
def rlook (k : String) : PivotRow → Option Rat
  | [] => none
  | (k', v) :: t => if k' = k then some v else rlook k t

/-- Object property write: update in place, or append a fresh key. -/
def rowSet (r : PivotRow) (k : String) (v : Rat) : PivotRow :=
  match r with
  | [] => [(k, v)]
  | (k', v') :: t => if k' = k then (k, v) :: t else (k', v') :: rowSet t k v

/-- Outer object property read. -/
def plook (c : String) : PivotData → Option PivotRow
  | [] => none
  | (c', r) :: t => if c' = c then some r else plook c t

/-- Apply `f` to the row stored at key `c` (first occurrence). -/
def pivotModify (p : PivotData) (c : String) (f : PivotRow → PivotRow) : PivotData :=
  match p with
  | [] => []
  | (c', r) :: t => if c' = c then (c, f r) :: t else (c', r) :: pivotModify t c f

/-- A company's fresh row: `{ 'Total Holdings': 0 }`. -/
def initRow : PivotRow := [("Total Holdings", 0)]

/-- The body of the fold for one record:
`pivot[c][o] = (pivot[c][o] || 0) + total` then
`pivot[c]['Total Holdings'] += total` (the key is always present in rows
this fold builds, so the read's default is unreachable). -/
def updateRow (a : HoldingData) (row : PivotRow) : PivotRow :=
  let cur := (rlook a.ownerName row).getD 0
  let row1 := rowSet row a.ownerName (cur + a.total)
  let th := (rlook "Total Holdings" row1).getD 0
  rowSet row1 "Total Holdings" (th + a.total)

/-- One `combinedData.forEach` iteration. -/
def foldStep (p : PivotData) (a : HoldingData) : PivotData :=
  let p1 := if (plook a.companyName p).isSome then p
            else p ++ [(a.companyName, initRow)]
  pivotModify p1 a.companyName (updateRow a)

/-- Folding a record list into an initially empty pivot. -/
def foldPivot (records : List HoldingData) : PivotData :=
  records.foldl foldStep []

/-! ## SortEngine -/

inductive SortDir where
  | asc
  | desc
deriving DecidableEq

/-- Models `a.localeCompare(b)` as code-point comparison (−1/0/1); no
claim depends on locale-specific collation. -/
def strCompareVal (a b : String) : Rat :=
  if a < b then -1 else if a = b then 0 else 1

/-- The comparator passed to `entries.sort` for a given column and
direction.  For `"Total Holdings"` the source reads the key directly
(always present in aggregator-built tables); other owner columns default
missing values to `0`. -/
def sortComparator (column : String) (dir : SortDir) (a b : String × PivotRow) : Rat :=
  if column = "Company Name" then
    match dir with
    | .asc => strCompareVal a.1 b.1
    | .desc => strCompareVal b.1 a.1
  else
    let aVal := if column = "Total Holdings" then (rlook "Total Holdings" a.2).getD 0
                else (rlook column a.2).getD 0
    let bVal := if column = "Total Holdings" then (rlook "Total Holdings" b.2).getD 0
                else (rlook column b.2).getD 0
    match dir with
    | .asc => aVal - bVal
    | .desc => bVal - aVal

/-- Stable insertion: `a` goes after every element it does not strictly
precede, preserving the original relative order of ties. -/
def stableInsert (le : α → α → Bool) (a : α) : List α → List α
  | [] => [a]
  | b :: t => if le b a then b :: stableInsert le a t else a :: b :: t

/-- A stable sort, modelling the (ES2019) stable `Array.prototype.sort`:
for a consistent comparator both produce the unique stable order. -/
def stableSort (le : α → α → Bool) (l : List α) : List α :=
  l.foldl (fun acc a => stableInsert le a acc) []

/-- The source's `getSortedEntries`: `Object.entries(data)` in insertion order, sorted
by the selected column when one is set.  Pure: the table itself is
untouched. -/
def getSortedEntries (data : PivotData) (sortColumn : Option String)
    (dir : SortDir) : List (String × PivotRow) :=
  match sortColumn with
  | none => data
  | some column => stableSort (fun a b => sortComparator column dir a b ≤ 0) data

/-! ## Derived notions used by the stated properties -/

/-- The sum of a row's values over the owner keys, i.e. excluding the
reserved `"Total Holdings"` key. -/
def rowNonTotalSum (r : PivotRow) : Rat :=
  ((r.filter fun e => e.1 != "Total Holdings").map Prod.snd).sum

/-- A row satisfies the aggregation invariant: its `"Total Holdings"`
value is present and equals the sum of its owner values. -/
def rowInvariant (r : PivotRow) : Prop :=
  rlook "Total Holdings" r = some (rowNonTotalSum r)

/-- Every company row of the table satisfies the aggregation invariant. -/
def pivotInvariant (p : PivotData) : Prop :=
  ∀ e ∈ p, rowInvariant e.2

/-- The multiset of company names occurring in a record list. -/
def companiesOf (rs : List HoldingData) : List String :=
  rs.map (·.companyName)

/-- The contribution of one record to its company's `"Total Holdings"`
cell: the fold adds `total` once via the owner write and once via the
running-total write when the owner is the reserved key itself. -/
def recWeight (r : HoldingData) : Rat :=
  if r.ownerName = "Total Holdings" then 2 * r.total else r.total

/-- The `"Total Holdings"` value a company accumulates from a record list. -/
def totalSumFor (rs : List HoldingData) (c : String) : Rat :=
  ((rs.filter fun r => r.companyName == c).map recWeight).sum

/-- The value a company/owner pair accumulates from a record list. -/
def ownerSumFor (rs : List HoldingData) (c o : String) : Rat :=
  ((rs.filter fun r => r.companyName == c && r.ownerName == o).map (·.total)).sum

/-- Does some record mention this company/owner pair? -/
def hasOwnerRec (rs : List HoldingData) (c o : String) : Bool :=
  rs.any fun r => r.companyName == c && r.ownerName == o

/-- The table cell at a company/owner pair, when both keys exist. -/
def entryVal (p : PivotData) (c o : String) : Option Rat :=
  (plook c p).bind (rlook o)

/-! ## Helper lemmas -/

/-- Everything a successful row extraction guarantees: the row is wide
enough, the record carries the trimmed company name and the row's parsed
quantity, the noise filter passed, the name is longer than one character
and the quantity is nonzero. -/
theorem rowToRecord_emits {m : ColumnMapping} {o : String} {row : List Cell}
    {r : HoldingData} (h : rowToRecord m o row = some r) :
    max m.companyColIndex m.totalColIndex + 1 ≤ row.length ∧
    r.companyName = extractCompany m row ∧
    r.total = cellQuantity (rowCell row m.totalColIndex) ∧
    r.ownerName = o ∧
    noiseNameTest (extractCompany m row) = false ∧
    1 < (extractCompany m row).length ∧
    r.total ≠ 0 := by
  simp only [rowToRecord] at h
  split at h
  · exact absurd h (by simp)
  · next hlen =>
    split at h
    · exact absurd h (by simp)
    · next hnoise =>
      split at h
      · next hcond =>
        obtain rfl := (Option.some.inj h).symm
        simp only [Bool.and_eq_true, decide_eq_true_eq, ne_eq] at hcond
        refine ⟨by omega, rfl, rfl, rfl, by simpa using hnoise,
          hcond.1.2, hcond.2⟩
      · exact absurd h (by simp)

/-- An extracted record comes from a row at or past the data start row. -/
theorem mem_extractRecords {sheet : List (List Cell)} {m : ColumnMapping}
    {o : String} {r : HoldingData} (h : r ∈ extractRecords sheet m o) :
    ∃ row ∈ sheet.drop m.dataStartRow.toNat, rowToRecord m o row = some r := by
  simpa [extractRecords] using List.mem_filterMap.mp h

/-! ## C1: owner extraction -/

/-- C1 counterexample: on `"CLIENT John_Doe CLIENT-ID 123.xlsx"` the
pattern `CLIENT <name> CLIENT-ID` does not match, because the name part
contains an underscore, which the capture class `[^-|_]` excludes; the
function falls back to stripping the extension and returns
`"CLIENT John_Doe CLIENT-ID 123"`, not `"John Doe"` as the claim states. -/
theorem c1_counterexample :
    extractOwnerFromFilename "CLIENT John_Doe CLIENT-ID 123.xlsx"
      = "CLIENT John_Doe CLIENT-ID 123" ∧
    extractOwnerFromFilename "CLIENT John_Doe CLIENT-ID 123.xlsx"
      ≠ "John Doe" := by
  constructor
  · decide
  · decide

/-- C1 (amended): `extractOwner` returns the captured name trimmed for a
filename whose name part avoids the excluded characters
(`extractOwner("CLIENT John Doe CLIENT-ID 123.xlsx") = "John Doe"`); a
name part containing an underscore defeats the pattern and the fallback
strips the trailing extension
(`extractOwner("CLIENT John_Doe CLIENT-ID 123.xlsx") =
"CLIENT John_Doe CLIENT-ID 123"`); and
`extractOwner("report.csv") = "report"`. -/
theorem c1_owner_extraction :
    extractOwnerFromFilename "CLIENT John Doe CLIENT-ID 123.xlsx" = "John Doe" ∧
    extractOwnerFromFilename "CLIENT John_Doe CLIENT-ID 123.xlsx"
      = "CLIENT John_Doe CLIENT-ID 123" ∧
    extractOwnerFromFilename "report.csv" = "report" := by
  refine ⟨by decide, by decide, by decide⟩

/-! ## C2: quantities of emitted records -/

/-- C2 counterexample: a numeric quantity cell passes through the parsing
branch untouched, so a negative quantity is **not** treated as `0`: the
extractor emits a record with quantity `-5` for a row whose quantity cell
is the number `-5`. -/
theorem c2_counterexample :
    extractRecords [[Cell.text "AB", Cell.num (-5)]]
        ⟨0, 0, 1⟩ "owner"
      = [{ companyName := "AB", total := -5, ownerName := "owner" }] ∧
    ({ companyName := "AB", total := -5, ownerName := "owner" } : HoldingData).total < 0 := by
  refine ⟨by decide, by decide⟩

/-- C2 (amended): an unparsable or empty quantity cell parses to `0`, and
zero-quantity rows are dropped, so every record emitted by the extractor
carries a nonzero quantity; a negative numeric quantity, however, is not
treated as `0` and is emitted unchanged. -/
theorem c2_nonzero_quantity (sheet : List (List Cell)) (m : ColumnMapping)
    (o : String) : ∀ r ∈ extractRecords sheet m o, r.total ≠ 0 := by
  intro r hr
  obtain ⟨row, -, hrow⟩ := mem_extractRecords hr
  exact (rowToRecord_emits hrow).2.2.2.2.2.2

/-- C2 witness: the amended theorem applied to a concrete sheet whose
single record has quantity `7`. -/
theorem c2_nonzero_quantity_witness :
    ({ companyName := "AB", total := 7, ownerName := "o" } : HoldingData).total ≠ 0 :=
  c2_nonzero_quantity [[Cell.text "AB", Cell.num 7]] ⟨0, 0, 1⟩ "o"
    { companyName := "AB", total := 7, ownerName := "o" } (by decide)

/-! ## C5: noise filtering -/

/-- C5: a data row whose extracted company name, lower-cased, contains
"total", "grand" or "summary" is never emitted as a record, whatever the
column mapping and owner. -/
theorem c5_noise_filter (m : ColumnMapping) (o : String) (row : List Cell)
    (h : noiseNameTest (extractCompany m row) = true) :
    rowToRecord m o row = none := by
  simp [rowToRecord, h]

/-- C5 witness: a row with company name `"Grand Total"` and quantity `100`
is dropped. -/
theorem c5_noise_filter_witness :
    rowToRecord ⟨0, 0, 1⟩ "o" [Cell.text "Grand Total", Cell.num 100] = none :=
  c5_noise_filter ⟨0, 0, 1⟩ "o" [Cell.text "Grand Total", Cell.num 100] (by decide)

/-! ## C7: sort stability -/

/-- C7: sorting the table `{A: 50, B: 50, C: 10}` (insertion order A, B, C)
by `"Total Holdings"` descending yields A, B, C: the A/B tie keeps the
original insertion order and C comes last; the result is a reordered view
of exactly the table's entries (the table itself is a value the sort does
not modify). -/
theorem c7_sort_stability :
    getSortedEntries
        [("A", [("Total Holdings", (50 : Rat))]),
         ("B", [("Total Holdings", 50)]),
         ("C", [("Total Holdings", 10)])]
        (some "Total Holdings") SortDir.desc
      = [("A", [("Total Holdings", (50 : Rat))]),
         ("B", [("Total Holdings", 50)]),
         ("C", [("Total Holdings", 10)])] ∧
    (getSortedEntries
        [("A", [("Total Holdings", (50 : Rat))]),
         ("B", [("Total Holdings", 50)]),
         ("C", [("Total Holdings", 10)])]
        (some "Total Holdings") SortDir.desc).Perm
      [("A", [("Total Holdings", (50 : Rat))]),
       ("B", [("Total Holdings", 50)]),
       ("C", [("Total Holdings", 10)])] := by
  have h : getSortedEntries
      [("A", [("Total Holdings", (50 : Rat))]),
       ("B", [("Total Holdings", 50)]),
       ("C", [("Total Holdings", 10)])]
      (some "Total Holdings") SortDir.desc
    = [("A", [("Total Holdings", (50 : Rat))]),
       ("B", [("Total Holdings", 50)]),
       ("C", [("Total Holdings", 10)])] := by
    simp [getSortedEntries, stableSort, stableInsert, sortComparator, rlook]
    norm_num
  refine ⟨h, ?_⟩
  rw [h]

/-! ## C8: emission conditions -/

/-- C8: a record is emitted from a row (taken from index `dataStartRow`
on) only if the row has at least `max(companyColIndex, totalColIndex) + 1`
cells, the trimmed company name is longer than one character, and the
parsed quantity is nonzero; rows failing these checks are skipped with
`none`, i.e. silently. -/
theorem c8_emission_conditions (sheet : List (List Cell)) (m : ColumnMapping)
    (o : String) (r : HoldingData) (h : r ∈ extractRecords sheet m o) :
    ∃ row ∈ sheet.drop m.dataStartRow.toNat,
      rowToRecord m o row = some r ∧
      max m.companyColIndex m.totalColIndex + 1 ≤ row.length ∧
      1 < (extractCompany m row).length ∧
      r.total ≠ 0 := by
  obtain ⟨row, hmem, hrow⟩ := mem_extractRecords h
  have hfacts := rowToRecord_emits hrow
  exact ⟨row, hmem, hrow, hfacts.1, hfacts.2.2.2.2.2.1, hfacts.2.2.2.2.2.2⟩

/-- C8 witness: the emission conditions hold of the one record extracted
from a concrete sheet. -/
theorem c8_emission_conditions_witness :
    ∃ row ∈ ([[Cell.text "ABC", Cell.num 7]] : List (List Cell)).drop
        ((⟨0, 0, 1⟩ : ColumnMapping).dataStartRow.toNat),
      rowToRecord ⟨0, 0, 1⟩ "o" row
          = some { companyName := "ABC", total := 7, ownerName := "o" } ∧
        max (⟨0, 0, 1⟩ : ColumnMapping).companyColIndex
            (⟨0, 0, 1⟩ : ColumnMapping).totalColIndex + 1 ≤ row.length ∧
        1 < (extractCompany ⟨0, 0, 1⟩ row).length ∧
        ({ companyName := "ABC", total := 7, ownerName := "o" } : HoldingData).total ≠ 0 :=
  c8_emission_conditions [[Cell.text "ABC", Cell.num 7]] ⟨0, 0, 1⟩ "o"
    { companyName := "ABC", total := 7, ownerName := "o" } (by decide)

/-! ## C10: short rows are invisible to the detector -/

/-- C10: the detector's per-row step leaves its state (and in particular
`companyColIndex`, `totalColIndex` and `dataStartRow`) untouched and does
not break the scan when the row has fewer than 3 cells, so such a row can
trigger neither the data-row heuristic nor header detection, even if one
of its cells contains a header keyword. -/
theorem c10_short_rows_ignored (st : ColumnMapping) (i : Nat)
    (row : List Cell) (h : row.length < 3) :
    detectRowStep st i row = (st, false) := by
  simp [detectRowStep, h]

/-- C10 witness: a 1-cell row containing the header keyword `"company"`
leaves the default state unchanged. -/
theorem c10_short_rows_ignored_witness :
    detectRowStep ⟨-1, 1, 9⟩ 0 [Cell.text "company"] = (⟨-1, 1, 9⟩, false) :=
  c10_short_rows_ignored ⟨-1, 1, 9⟩ 0 [Cell.text "company"] (by decide)

/-! ## C6 and C9: format detection -/

/-- A row none of whose cells matches a header keyword leaves the header
scan's state unchanged. -/
theorem headerRowScan_no_keyword (row : List Cell) :
    ∀ (st : ColumnMapping) (i j : Nat),
    (∀ c ∈ row, companyKeywordTest (headerCellValue c) = false ∧
      totalKeywordTest (headerCellValue c) = false) →
    headerRowScan st i j row = st := by
  induction row with
  | nil => intro st i j _; rfl
  | cons c rest ih =>
    intro st i j h
    have hc := h c (List.mem_cons_self c rest)
    have hrest : ∀ c' ∈ rest, companyKeywordTest (headerCellValue c') = false ∧
        totalKeywordTest (headerCellValue c') = false :=
      fun c' hc' => h c' (List.mem_cons_of_mem c hc')
    have hstep : headerCellStep st i j c = st := by
      simp [headerCellStep, hc.1, hc.2]
    simp only [headerRowScan, hstep]
    exact ih st i (j + 1) hrest

/-- A scan over rows none of which carries a data-row or header signal
leaves the detector state unchanged. -/
theorem detectGo_no_signal (rows : List (List Cell)) :
    ∀ (st : ColumnMapping) (i : Nat),
    (∀ row ∈ rows, dataRowTest row = false ∧
      ∀ c ∈ row, companyKeywordTest (headerCellValue c) = false ∧
        totalKeywordTest (headerCellValue c) = false) →
    detectGo st i rows = st := by
  induction rows with
  | nil => intro st i _; rfl
  | cons row rest ih =>
    intro st i h
    have hrow := h row (List.mem_cons_self row rest)
    have hrest : ∀ row' ∈ rest, dataRowTest row' = false ∧
        ∀ c ∈ row', companyKeywordTest (headerCellValue c) = false ∧
          totalKeywordTest (headerCellValue c) = false :=
      fun row' hr => h row' (List.mem_cons_of_mem row hr)
    by_cases hlen : row.length < 3
    · simp only [detectGo, detectRowStep, if_pos hlen]
      exact ih st (i + 1) hrest
    · have hstep : detectRowStep st i row = (headerRowScan st i 0 row, false) := by
        simp [detectRowStep, hlen, hrow.1]
      simp only [detectGo, hstep, headerRowScan_no_keyword row st i 0 hrow.2]
      exact ih st (i + 1) hrest

/-- C6: a sheet with fewer than 15 rows in which no row triggers the
ISIN/numeric data-row heuristic and no cell matches a header keyword gets
the complete default mapping: `dataStartRow = 5`, `companyColIndex = 1`,
`totalColIndex = 9` (detection is total and never fails). -/
theorem c6_detection_fallback (sheet : List (List Cell))
    (_hlen : sheet.length < 15)
    (h : ∀ row ∈ sheet, dataRowTest row = false ∧
      ∀ c ∈ row, companyKeywordTest (headerCellValue c) = false ∧
        totalKeywordTest (headerCellValue c) = false) :
    detect sheet = ⟨5, 1, 9⟩ := by
  have hgo : detectGo detectInit 0 (sheet.take 15) = detectInit :=
    detectGo_no_signal (sheet.take 15) detectInit 0
      (fun row hr => h row (List.take_subset 15 sheet hr))
  simp only [detect, hgo]
  rfl

/-- C6 witness: a one-row sheet with three unremarkable text cells yields
the default mapping. -/
theorem c6_detection_fallback_witness :
    detect [[Cell.text "a", Cell.text "b", Cell.text "c"]] = ⟨5, 1, 9⟩ :=
  c6_detection_fallback [[Cell.text "a", Cell.text "b", Cell.text "c"]]
    (by decide) (by decide)

/-- Prefix lookup through `take`: positions inside the window agree with
the original list. -/
theorem getD_take_eq {α : Type} (l : List α) :
    ∀ (n j : Nat) (d : α), j < n → (l.take n).getD j d = l.getD j d := by
  induction l with
  | nil => intro n j d _; simp
  | cons a t ih =>
    intro n j d hj
    cases n with
    | zero => omega
    | succ n =>
      cases j with
      | zero => simp
      | succ j => simpa using ih n j d (by omega)

/-- If the rows before position `n` are all too short to be scanned and
the row at `n` passes the data-row test (and is wide enough to be
scanned), the scan stops there with `dataStartRow = offset + n` and the
column indices untouched. -/
theorem detectGo_first_data_row :
    ∀ (n : Nat) (rows : List (List Cell)) (st : ColumnMapping) (k : Nat),
    (∀ j < n, (rows.getD j []).length < 3) →
    n < rows.length →
    ¬ (rows.getD n []).length < 3 →
    dataRowTest (rows.getD n []) = true →
    detectGo st k rows = { st with dataStartRow := ((k + n : Nat) : Int) } := by
  intro n
  induction n with
  | zero =>
    intro rows st k _ hlen hwide hdata
    cases rows with
    | nil => simp at hlen
    | cons row rest =>
      simp only [List.getD_cons_zero] at hwide hdata
      simp [detectGo, detectRowStep, if_neg hwide, hdata]
  | succ n ih =>
    intro rows st k hshort hlen hwide hdata
    cases rows with
    | nil => simp at hlen
    | cons row rest =>
      have hrow : row.length < 3 := by
        have := hshort 0 (by omega)
        simpa using this
      simp only [detectGo, detectRowStep, if_pos hrow]
      have hlen' : n < rest.length := by
        simp only [List.length_cons] at hlen
        omega
      have := ih rest st (k + 1)
        (fun j hj => by simpa using hshort (j + 1) (by omega))
        hlen' (by simpa using hwide) (by simpa using hdata)
      rw [this]
      congr 1
      omega

/-- C9: if, within the 15-row window, every row before position `i` has
fewer than 3 cells and the row at `i` has at least 3 cells with a first
cell that (trimmed) is a generic two-letter-prefixed alphanumeric code,
then the scan fixes `dataStartRow = i` and halts before any header
detection, leaving the column indices at their defaults. -/
theorem c9_generic_code_halts (sheet : List (List Cell)) (i : Nat)
    (h15 : i < 15) (hlen : i < sheet.length)
    (hshort : ∀ j < i, (sheet.getD j []).length < 3)
    (hwide : 3 ≤ (sheet.getD i []).length)
    (hcode : isGenericCode (jsTrim (jsStrOrEmpty (rowCell (sheet.getD i []) 0))) = true) :
    detect sheet = ⟨(i : Int), 1, 9⟩ := by
  have htake : ∀ j, j ≤ i → (sheet.take 15).getD j [] = sheet.getD j [] :=
    fun j hj => getD_take_eq sheet 15 j [] (by omega)
  have hdata : dataRowTest ((sheet.take 15).getD i []) = true := by
    rw [htake i le_rfl]
    simp only [dataRowTest, Bool.or_eq_true]
    exact Or.inl (Or.inr hcode)
  have hgo := detectGo_first_data_row i (sheet.take 15) detectInit 0
    (fun j hj => by rw [htake j (by omega)]; exact hshort j hj)
    (by simp [List.length_take]; omega)
    (by rw [htake i le_rfl]; omega)
    hdata
  simp only [detect, hgo, Nat.zero_add]
  rw [if_neg (by omega)]
  rfl

/-- C9 witness: a sheet whose first row is `["Date", "x", "y"]` — a plain
word passing the generic-code test — makes the detector fix
`dataStartRow = 0` with the default column indices. -/
theorem c9_generic_code_halts_witness :
    detect [[Cell.text "Date", Cell.text "x", Cell.text "y"]] = ⟨0, 1, 9⟩ :=
  c9_generic_code_halts [[Cell.text "Date", Cell.text "x", Cell.text "y"]] 0
    (by decide) (by decide) (fun j hj => absurd hj (by omega)) (by decide) (by decide)

/-! ## Association-list lemmas for the pivot -/

theorem rlook_rowSet_self (r : PivotRow) (k : String) (v : Rat) :
    rlook k (rowSet r k v) = some v := by
  induction r with
  | nil => simp [rowSet, rlook]
  | cons e t ih =>
    by_cases hk : e.1 = k
    · simp [rowSet, hk, rlook]
    · simp [rowSet, hk, rlook, ih]

theorem rlook_rowSet_ne (r : PivotRow) {k k' : String} (v : Rat)
    (h : k' ≠ k) : rlook k' (rowSet r k v) = rlook k' r := by
  induction r with
  | nil => simp [rowSet, rlook, Ne.symm h]
  | cons e t ih =>
    by_cases hk : e.1 = k
    · subst hk
      simp [rowSet, rlook, Ne.symm h]
    · by_cases hk' : e.1 = k'
      · simp [rowSet, hk, rlook, hk', h]
      · simp [rowSet, hk, rlook, hk', ih]

/-- Writing an owner key shifts the non-total sum by the difference
between the new and the looked-up old value (first occurrences on both
sides, so no key-uniqueness assumption is needed). -/
theorem rowNonTotalSum_rowSet_ne (r : PivotRow) {o : String} (v : Rat)
    (h : o ≠ "Total Holdings") :
    rowNonTotalSum (rowSet r o v)
      = rowNonTotalSum r - (rlook o r).getD 0 + v := by
  simp only [rowNonTotalSum]
  induction r with
  | nil =>
    simp [rowSet, rlook, h]
  | cons e t ih =>
    by_cases hk : e.1 = o
    · have he : e.1 ≠ "Total Holdings" := hk ▸ h
      simp only [rowSet, if_pos hk, List.filter_cons]
      rw [if_pos (by simpa using h), if_pos (by simpa using he)]
      simp [rlook, hk]
      ring
    · by_cases hT : e.1 = "Total Holdings"
      · simp only [rowSet, if_neg hk, List.filter_cons]
        rw [if_neg (by simpa using hT), if_neg (by simpa using hT)]
        rw [ih]
        simp [rlook, hk]
      · simp only [rowSet, if_neg hk, List.filter_cons]
        rw [if_pos (by simpa using hT), if_pos (by simpa using hT)]
        simp only [List.map_cons, List.sum_cons]
        rw [ih]
        simp [rlook, hk]
        ring

/-- Writing the reserved total key does not change the non-total sum. -/
theorem rowNonTotalSum_rowSet_total (r : PivotRow) (v : Rat) :
    rowNonTotalSum (rowSet r "Total Holdings" v) = rowNonTotalSum r := by
  simp only [rowNonTotalSum]
  induction r with
  | nil => simp [rowSet]
  | cons e t ih =>
    by_cases hk : e.1 = "Total Holdings"
    · simp only [rowSet, if_pos hk, List.filter_cons]
      rw [if_neg (by simp), if_neg (by simpa using hk)]
    · simp only [rowSet, if_neg hk, List.filter_cons]
      rw [if_pos (by simpa using hk), if_pos (by simpa using hk)]
      simp only [List.map_cons, List.sum_cons]
      rw [ih]

/-- The per-record row update preserves the row invariant whenever the
record's owner is not the reserved total key. -/
theorem updateRow_invariant {a : HoldingData} {r : PivotRow}
    (ho : a.ownerName ≠ "Total Holdings") (hr : rowInvariant r) :
    rowInvariant (updateRow a r) := by
  unfold rowInvariant at hr
  have hT : ("Total Holdings" : String) ≠ a.ownerName := Ne.symm ho
  simp only [rowInvariant, updateRow]
  rw [rlook_rowSet_self]
  rw [rowNonTotalSum_rowSet_total, rowNonTotalSum_rowSet_ne _ _ ho]
  rw [rlook_rowSet_ne _ _ hT, hr]
  refine congrArg some ?_
  simp
  ring

/-- The fresh row `{ 'Total Holdings': 0 }` satisfies the invariant. -/
theorem initRow_invariant : rowInvariant initRow := by
  simp [rowInvariant, initRow, rlook, rowNonTotalSum]

/-- Modifying one entry with an invariant-preserving function preserves
the table invariant. -/
theorem pivotModify_invariant {p : PivotData} {c : String}
    {f : PivotRow → PivotRow}
    (hf : ∀ r, rowInvariant r → rowInvariant (f r))
    (hp : pivotInvariant p) : pivotInvariant (pivotModify p c f) := by
  induction p with
  | nil => intro e he; simp [pivotModify] at he
  | cons e t ih =>
    have he := hp e (List.mem_cons_self e t)
    have ht : pivotInvariant t := fun e' he' => hp e' (List.mem_cons_of_mem e he')
    by_cases hk : e.1 = c
    · intro e' he'
      simp only [pivotModify, if_pos hk] at he'
      rcases List.mem_cons.mp he' with h1 | h2
      · subst h1; exact hf e.2 he
      · exact ht e' h2
    · intro e' he'
      simp only [pivotModify, if_neg hk] at he'
      rcases List.mem_cons.mp he' with h1 | h2
      · subst h1; exact he
      · exact ih ht e' h2

/-- One fold step preserves the table invariant whenever the record's
owner is not the reserved total key. -/
theorem foldStep_invariant {p : PivotData} {a : HoldingData}
    (ho : a.ownerName ≠ "Total Holdings") (hp : pivotInvariant p) :
    pivotInvariant (foldStep p a) := by
  unfold foldStep
  apply pivotModify_invariant (fun r hr => updateRow_invariant ho hr)
  by_cases hc : (plook a.companyName p).isSome
  · simpa [hc] using hp
  · simp only [hc, if_false, Bool.false_eq_true]
    intro e he
    rcases List.mem_append.mp he with h1 | h2
    · exact hp e h1
    · have : e = (a.companyName, initRow) := by simpa using h2
      rw [this]
      exact initRow_invariant

/-! ## C3: the running-total invariant -/

/-- C3 counterexample: the reserved key is not protected from colliding
with an owner name.  Folding the single record
`{company := "AB", total := 5, owner := "Total Holdings"}` (an owner name
the filename-derived owner label can take, e.g. for a file named
`Total Holdings.xlsx`) yields the table `{AB: {Total Holdings: 10}}`:
the quantity is added to the reserved cell twice, there are no owner
columns, and `Total Holdings = 10 ≠ 0 =` sum of owner values, so the
claimed invariant fails. -/
theorem c3_counterexample :
    foldPivot [⟨"AB", 5, "Total Holdings"⟩]
      = [("AB", [("Total Holdings", 10)])] ∧
    ¬ pivotInvariant (foldPivot [⟨"AB", 5, "Total Holdings"⟩]) := by
  have h : foldPivot [⟨"AB", 5, "Total Holdings"⟩]
      = [("AB", [("Total Holdings", 10)])] := by
    simp [foldPivot, foldStep, updateRow, rowSet, rlook, plook, pivotModify, initRow]
    norm_num
  refine ⟨h, ?_⟩
  rw [h]
  intro hinv
  have := hinv ("AB", [("Total Holdings", 10)]) (by simp)
  simp only [rowInvariant, rlook, rowNonTotalSum, if_pos rfl] at this
  rw [List.filter_cons] at this
  simp at this

/-- C3 (amended): for every sequence of holding records none of whose
owner names is the reserved key `"Total Holdings"`, folding into the
empty table yields a table in which, for every company, the
`"Total Holdings"` value equals exactly the sum of that company's values
over all owner keys. -/
theorem c3_total_invariant (records : List HoldingData)
    (h : ∀ r ∈ records, r.ownerName ≠ "Total Holdings") :
    pivotInvariant (foldPivot records) := by
  suffices hgen : ∀ (l : List HoldingData) (p : PivotData),
      (∀ r ∈ l, r.ownerName ≠ "Total Holdings") → pivotInvariant p →
      pivotInvariant (List.foldl foldStep p l) by
    exact hgen records [] h (fun e he => by simp at he)
  intro l
  induction l with
  | nil => intro p _ hp; exact hp
  | cons a t ih =>
    intro p hl hp
    exact ih (foldStep p a) (fun r hr => hl r (List.mem_cons_of_mem a hr))
      (foldStep_invariant (hl a (List.mem_cons_self a t)) hp)

/-- C3 witness: the amended invariant holds after folding one ordinary
record. -/
theorem c3_total_invariant_witness :
    pivotInvariant (foldPivot [⟨"AB", 5, "own"⟩]) :=
  c3_total_invariant [⟨"AB", 5, "own"⟩] (by decide)

/-! ## C4: the fold as a function of the record multiset -/

theorem plook_append_left {c : String} {p : PivotData} {r : PivotRow}
    (h : plook c p = some r) (q : PivotData) : plook c (p ++ q) = some r := by
  induction p with
  | nil => simp [plook] at h
  | cons e t ih =>
    by_cases hk : e.1 = c
    · simp only [plook, if_pos hk] at h
      simp [plook, hk, h]
    · simp only [plook, if_neg hk] at h
      simp [plook, hk, ih h]

theorem plook_append_right {c : String} {p : PivotData}
    (h : plook c p = none) (q : PivotData) : plook c (p ++ q) = plook c q := by
  induction p with
  | nil => simp
  | cons e t ih =>
    by_cases hk : e.1 = c
    · simp [plook, hk] at h
    · simp only [plook, if_neg hk] at h
      simp [plook, hk, ih h]

theorem plook_pivotModify_self (p : PivotData) (c : String)
    (f : PivotRow → PivotRow) :
    plook c (pivotModify p c f) = (plook c p).map f := by
  induction p with
  | nil => simp [pivotModify, plook]
  | cons e t ih =>
    by_cases hk : e.1 = c
    · simp [pivotModify, hk, plook]
    · simp [pivotModify, hk, plook, ih]

theorem plook_pivotModify_ne (p : PivotData) {c c' : String}
    (f : PivotRow → PivotRow) (h : c' ≠ c) :
    plook c' (pivotModify p c f) = plook c' p := by
  induction p with
  | nil => simp [pivotModify]
  | cons e t ih =>
    by_cases hk : e.1 = c
    · simp [pivotModify, hk, plook, Ne.symm h, ih]
    · by_cases hk' : e.1 = c'
      · simp [pivotModify, hk, plook, hk', h]
      · simp [pivotModify, hk, plook, hk', ih]

/-- The fold step stores, at the record's company, the update of the
previous row (or of the fresh initial row). -/
theorem plook_foldStep_self (p : PivotData) (a : HoldingData) :
    plook a.companyName (foldStep p a)
      = some (updateRow a ((plook a.companyName p).getD initRow)) := by
  simp only [foldStep]
  cases hc : plook a.companyName p with
  | some r =>
    rw [if_pos (by simp [hc])]
    rw [plook_pivotModify_self, hc]
    rfl
  | none =>
    rw [if_neg (by simp [hc])]
    rw [plook_pivotModify_self, plook_append_right hc]
    simp [plook]

/-- The fold step leaves every other company's entry alone. -/
theorem plook_foldStep_ne (p : PivotData) (a : HoldingData) {c : String}
    (h : c ≠ a.companyName) : plook c (foldStep p a) = plook c p := by
  simp only [foldStep]
  rw [plook_pivotModify_ne _ _ h]
  by_cases hc : (plook a.companyName p).isSome
  · rw [if_pos hc]
  · rw [if_neg hc]
    cases hcp : plook c p with
    | some r => exact plook_append_left hcp _
    | none =>
      rw [plook_append_right hcp]
      simp [plook, Ne.symm h]

/-- The `"Total Holdings"` cell after one row update: the previous value
plus the record's weight (`2 × total` for a record whose owner is the
reserved key, since both writes then hit the same cell). -/
theorem rlook_updateRow_total (a : HoldingData) (row : PivotRow) :
    rlook "Total Holdings" (updateRow a row)
      = some ((rlook "Total Holdings" row).getD 0 + recWeight a) := by
  by_cases ho : a.ownerName = "Total Holdings"
  · simp only [updateRow, recWeight, ho, if_pos rfl]
    rw [rlook_rowSet_self, rlook_rowSet_self]
    refine congrArg some ?_
    simp
    ring
  · simp only [updateRow, recWeight, if_neg ho]
    rw [rlook_rowSet_self, rlook_rowSet_ne _ _ (Ne.symm ho)]

/-- Any other cell after one row update: bumped by the record's total at
the record's owner key, untouched elsewhere. -/
theorem rlook_updateRow_other (a : HoldingData) (row : PivotRow)
    {o : String} (hoT : o ≠ "Total Holdings") :
    rlook o (updateRow a row)
      = if o = a.ownerName then some ((rlook a.ownerName row).getD 0 + a.total)
        else rlook o row := by
  simp only [updateRow]
  rw [rlook_rowSet_ne _ _ hoT]
  by_cases ho : o = a.ownerName
  · rw [if_pos ho, ho, rlook_rowSet_self]
  · rw [if_neg ho, rlook_rowSet_ne _ _ ho]

theorem foldPivot_concat (rs : List HoldingData) (a : HoldingData) :
    foldPivot (rs ++ [a]) = foldStep (foldPivot rs) a := by
  simp [foldPivot, List.foldl_append]

theorem totalSumFor_append (rs : List HoldingData) (a : HoldingData)
    (c : String) :
    totalSumFor (rs ++ [a]) c
      = totalSumFor rs c + (if a.companyName = c then recWeight a else 0) := by
  by_cases h : a.companyName = c
  · simp [totalSumFor, List.filter_append, List.filter_cons, h]
  · simp [totalSumFor, List.filter_append, List.filter_cons, h]

theorem ownerSumFor_append (rs : List HoldingData) (a : HoldingData)
    (c o : String) :
    ownerSumFor (rs ++ [a]) c o
      = ownerSumFor rs c o
        + (if a.companyName = c ∧ a.ownerName = o then a.total else 0) := by
  by_cases h1 : a.companyName = c
  · by_cases h2 : a.ownerName = o
    · simp [ownerSumFor, List.filter_append, List.filter_cons, h1, h2]
    · simp [ownerSumFor, List.filter_append, List.filter_cons, h1, h2]
  · simp [ownerSumFor, List.filter_append, List.filter_cons, h1]

theorem hasOwnerRec_append (rs : List HoldingData) (a : HoldingData)
    (c o : String) :
    hasOwnerRec (rs ++ [a]) c o
      = (hasOwnerRec rs c o || (a.companyName == c && a.ownerName == o)) := by
  simp [hasOwnerRec, List.any_append]

theorem totalSumFor_of_not_mem {rs : List HoldingData} {c : String}
    (h : c ∉ companiesOf rs) : totalSumFor rs c = 0 := by
  have hfil : rs.filter (fun r => r.companyName == c) = [] := by
    rw [List.filter_eq_nil_iff]
    intro r hr
    simp only [beq_iff_eq]
    exact fun hc => h (hc ▸ List.mem_map_of_mem _ hr)
  simp [totalSumFor, hfil]

theorem ownerSumFor_of_no_rec {rs : List HoldingData} {c o : String}
    (h : hasOwnerRec rs c o = false) : ownerSumFor rs c o = 0 := by
  have hall := List.any_eq_false.mp h
  have hfil : rs.filter (fun r => r.companyName == c && r.ownerName == o) = [] := by
    rw [List.filter_eq_nil_iff]
    intro r hr
    exact fun hp => hall r hr hp
  simp [ownerSumFor, hfil]

theorem mem_of_hasOwnerRec {rs : List HoldingData} {c o : String}
    (h : hasOwnerRec rs c o = true) : c ∈ companiesOf rs := by
  simp only [hasOwnerRec, List.any_eq_true] at h
  obtain ⟨r, hr, hp⟩ := h
  simp only [Bool.and_eq_true, beq_iff_eq] at hp
  exact hp.1 ▸ List.mem_map_of_mem _ hr

/-- The fold populates exactly the companies that occur in the records. -/
theorem foldPivot_mem_iff (rs : List HoldingData) (c : String) :
    (plook c (foldPivot rs)).isSome = true ↔ c ∈ companiesOf rs := by
  induction rs using List.reverseRecOn with
  | nil => simp [foldPivot, plook, companiesOf]
  | append_singleton rs a ih =>
    rw [foldPivot_concat]
    by_cases hc : c = a.companyName
    · subst hc
      rw [plook_foldStep_self]
      simp [companiesOf]
    · rw [plook_foldStep_ne _ _ hc]
      rw [ih]
      simp [companiesOf, hc]

theorem rlook_initRow_total : rlook "Total Holdings" initRow = some 0 := by
  simp [initRow, rlook]

theorem rlook_initRow_other {o : String} (h : o ≠ "Total Holdings") :
    rlook o initRow = none := by
  simp [initRow, rlook, Ne.symm h]

/-- Full extensional characterisation of the fold: each table cell is a
sum over the matching records, and which cells exist depends only on
which company/owner pairs occur.  All right-hand sides are
permutation-invariant functions of the record list. -/
theorem foldPivot_entryVal (rs : List HoldingData) (c o : String) :
    entryVal (foldPivot rs) c o =
      if c ∈ companiesOf rs then
        if o = "Total Holdings" then some (totalSumFor rs c)
        else if hasOwnerRec rs c o = true then some (ownerSumFor rs c o)
        else none
      else none := by
  induction rs using List.reverseRecOn with
  | nil => simp [foldPivot, entryVal, plook, companiesOf]
  | append_singleton rs a ih =>
    rw [foldPivot_concat]
    by_cases hc : c = a.companyName
    · subst hc
      rw [entryVal, plook_foldStep_self, Option.some_bind]
      rw [if_pos (by simp [companiesOf])]
      by_cases ho : o = "Total Holdings"
      · subst ho
        rw [rlook_updateRow_total, if_pos rfl]
        refine congrArg some ?_
        rw [totalSumFor_append, if_pos rfl]
        by_cases hm : a.companyName ∈ companiesOf rs
        · obtain ⟨row, hrow⟩ := Option.isSome_iff_exists.mp
            ((foldPivot_mem_iff rs _).mpr hm)
          have hval : rlook "Total Holdings" row = some (totalSumFor rs a.companyName) := by
            have := ih
            rw [entryVal, hrow, Option.some_bind, if_pos hm, if_pos rfl] at this
            exact this
          rw [hrow]
          simp [hval]
        · have hrow : plook a.companyName (foldPivot rs) = none := by
            cases hp : plook a.companyName (foldPivot rs) with
            | none => rfl
            | some r => exact absurd ((foldPivot_mem_iff rs _).mp (by simp [hp])) hm
          rw [hrow, totalSumFor_of_not_mem hm]
          simp [rlook_initRow_total]
      · rw [rlook_updateRow_other _ _ ho, if_neg ho]
        by_cases ho2 : o = a.ownerName
        · rw [if_pos ho2]
          have hrec : hasOwnerRec (rs ++ [a]) a.companyName o = true := by
            rw [hasOwnerRec_append]
            simp [ho2]
          rw [if_pos hrec]
          refine congrArg some ?_
          rw [ownerSumFor_append, if_pos ⟨rfl, ho2.symm⟩, ← ho2]
          by_cases hm : a.companyName ∈ companiesOf rs
          · obtain ⟨row, hrow⟩ := Option.isSome_iff_exists.mp
              ((foldPivot_mem_iff rs _).mpr hm)
            have hval := ih
            rw [entryVal, hrow, Option.some_bind, if_pos hm, if_neg ho] at hval
            rw [hrow]
            by_cases hr0 : hasOwnerRec rs a.companyName o = true
            · rw [if_pos hr0] at hval
              simp [hval]
            · rw [if_neg hr0] at hval
              rw [ownerSumFor_of_no_rec (by simpa using hr0)]
              simp [hval]
          · have hrow : plook a.companyName (foldPivot rs) = none := by
              cases hp : plook a.companyName (foldPivot rs) with
              | none => rfl
              | some r => exact absurd ((foldPivot_mem_iff rs _).mp (by simp [hp])) hm
            have hr0 : hasOwnerRec rs a.companyName o = false := by
              cases hr : hasOwnerRec rs a.companyName o with
              | false => rfl
              | true => exact absurd (mem_of_hasOwnerRec hr) hm
            rw [hrow, ownerSumFor_of_no_rec hr0]
            simp [rlook_initRow_other ho]
        · rw [if_neg ho2]
          have hrec_eq : hasOwnerRec (rs ++ [a]) a.companyName o
              = hasOwnerRec rs a.companyName o := by
            rw [hasOwnerRec_append]
            have : (a.ownerName == o) = false := by
              simp
              exact fun hh => ho2 hh.symm
            simp [this]
          have hsum_eq : ownerSumFor (rs ++ [a]) a.companyName o
              = ownerSumFor rs a.companyName o := by
            rw [ownerSumFor_append, if_neg (fun hh => ho2 hh.2.symm)]
            ring
          rw [hrec_eq, hsum_eq]
          by_cases hm : a.companyName ∈ companiesOf rs
          · obtain ⟨row, hrow⟩ := Option.isSome_iff_exists.mp
              ((foldPivot_mem_iff rs _).mpr hm)
            have hval := ih
            rw [entryVal, hrow, Option.some_bind, if_pos hm, if_neg ho] at hval
            rw [hrow]
            simpa using hval
          · have hrow : plook a.companyName (foldPivot rs) = none := by
              cases hp : plook a.companyName (foldPivot rs) with
              | none => rfl
              | some r => exact absurd ((foldPivot_mem_iff rs _).mp (by simp [hp])) hm
            have hr0 : hasOwnerRec rs a.companyName o = false := by
              cases hr : hasOwnerRec rs a.companyName o with
              | false => rfl
              | true => exact absurd (mem_of_hasOwnerRec hr) hm
            rw [hrow, if_neg (by simp [hr0])]
            simp [rlook_initRow_other ho]
    · have hL : entryVal (foldStep (foldPivot rs) a) c o
          = entryVal (foldPivot rs) c o := by
        simp only [entryVal]
        rw [plook_foldStep_ne _ _ hc]
      rw [hL, ih]
      have hmem_eq : (c ∈ companiesOf (rs ++ [a])) = (c ∈ companiesOf rs) := by
        simp [companiesOf, hc]
      have hts : totalSumFor (rs ++ [a]) c = totalSumFor rs c := by
        rw [totalSumFor_append, if_neg (fun hh => hc hh.symm)]
        ring
      have hos : ownerSumFor (rs ++ [a]) c o = ownerSumFor rs c o := by
        rw [ownerSumFor_append, if_neg (fun hh => hc hh.1.symm)]
        ring
      have hhr : hasOwnerRec (rs ++ [a]) c o = hasOwnerRec rs c o := by
        rw [hasOwnerRec_append]
        have : (a.companyName == c) = false := by
          simp
          exact fun hh => hc hh.symm
        simp [this]
      simp only [hmem_eq, hts, hos, hhr]

theorem perm_any {α : Type} {l₁ l₂ : List α} (hp : l₁.Perm l₂)
    (f : α → Bool) : l₁.any f = l₂.any f := by
  cases h2 : l₂.any f with
  | true =>
    obtain ⟨x, hx, hfx⟩ := List.any_eq_true.mp h2
    exact List.any_eq_true.mpr ⟨x, hp.mem_iff.mpr hx, hfx⟩
  | false =>
    have h2' := List.any_eq_false.mp h2
    exact List.any_eq_false.mpr fun x hx => h2' x (hp.mem_iff.mp hx)

/-- C4: folding a multiset of records into the empty table is insensitive
to order: permuted record lists yield tables with the same company key
set and the same value at every company/owner pair (including every
`"Total Holdings"` entry), and splitting the records across successive
fold calls composes to the fold of the concatenation. -/
theorem c4_fold_order_invariance :
    (∀ l₁ l₂ : List HoldingData, l₁.Perm l₂ →
      (∀ c, (plook c (foldPivot l₁)).isSome ↔ (plook c (foldPivot l₂)).isSome) ∧
      (∀ c o, entryVal (foldPivot l₁) c o = entryVal (foldPivot l₂) c o)) ∧
    (∀ (p : PivotData) (l₁ l₂ : List HoldingData),
      List.foldl foldStep p (l₁ ++ l₂)
        = List.foldl foldStep (List.foldl foldStep p l₁) l₂) := by
  constructor
  · intro l₁ l₂ hp
    have hcompany : ∀ c, (c ∈ companiesOf l₁) = (c ∈ companiesOf l₂) :=
      fun c => propext (hp.map (·.companyName)).mem_iff
    have htotal : ∀ c, totalSumFor l₁ c = totalSumFor l₂ c := fun c => by
      unfold totalSumFor
      exact ((hp.filter (fun r => r.companyName == c)).map recWeight).sum_eq
    have howner : ∀ c o, ownerSumFor l₁ c o = ownerSumFor l₂ c o := fun c o => by
      unfold ownerSumFor
      exact ((hp.filter
        (fun r => r.companyName == c && r.ownerName == o)).map (·.total)).sum_eq
    have hrec : ∀ c o, hasOwnerRec l₁ c o = hasOwnerRec l₂ c o :=
      fun c o => perm_any hp _
    constructor
    · intro c
      rw [foldPivot_mem_iff, foldPivot_mem_iff, hcompany]
    · intro c o
      rw [foldPivot_entryVal, foldPivot_entryVal]
      simp only [hcompany, htotal, hrec, howner]
  · intro p l₁ l₂
    exact List.foldl_append ..

/-- C4 witness: swapping two concrete records leaves the looked-up cell
unchanged. -/
theorem c4_fold_order_invariance_witness :
    entryVal (foldPivot [⟨"X", 1, "A"⟩, ⟨"Y", 2, "B"⟩]) "X" "A"
      = entryVal (foldPivot [⟨"Y", 2, "B"⟩, ⟨"X", 1, "A"⟩]) "X" "A" :=
  (c4_fold_order_invariance.1 [⟨"X", 1, "A"⟩, ⟨"Y", 2, "B"⟩]
    [⟨"Y", 2, "B"⟩, ⟨"X", 1, "A"⟩]
    (List.Perm.swap (⟨"Y", 2, "B"⟩ : HoldingData) (⟨"X", 1, "A"⟩ : HoldingData) [])).2 "X" "A"

end HoldingsManager
